import Mathlib

/-!
Verification development for the rtfm documentation-index tool
(`src/rtfm.py`).  The Python source is shallowly embedded: strings are
modelled as `List Char`, Python dicts as insertion-ordered association
lists with overwrite-in-place insertion, the regular expressions of the
source are hand-compiled to equivalent deterministic matchers (the
compilation is commented at each definition), and the startup / build
control flow is modelled as pure functions over an explicit world state.
Character classes (`\s`, `\d`, `str.rstrip`) are modelled with the ASCII
classes of `Char.isWhitespace` / `Char.isDigit`; the source relies on
them only for ASCII input.
-/

namespace Rtfm

abbrev Chars := List Char

/-- Python `str.rstrip()`: drop trailing whitespace. -/
def rstrip (s : Chars) : Chars :=
  (s.reverse.dropWhile (fun c => c.isWhitespace)).reverse

/-- Python dict membership `k in d` on the association-list model. -/
def dictContains (k : Chars) (d : List (Chars × Chars)) : Bool :=
  d.any (fun kv => kv.1 == k)

/-- Python dict lookup `d[k]`. -/
def dictLookup (k : Chars) (d : List (Chars × Chars)) : Option Chars :=
  match d.find? (fun kv => kv.1 == k) with
  | some kv => some kv.2
  | none => none

/-- Python dict assignment `d[k] = v`: overwrite in place, else append. -/
def dictInsert (k v : Chars) : List (Chars × Chars) → List (Chars × Chars)
  | [] => [(k, v)]
  | kv :: rest => if kv.1 == k then (k, v) :: rest else kv :: dictInsert k v rest

/-! ## FuzzyMatcher: `finder` (src/rtfm.py lines 37-52)

`pat = '.*?'.join(map(re.escape, text))`, compiled with `re.IGNORECASE`,
then `regex.search(key)`.  The pattern is the query's characters as
literals separated by lazy `.*?` gaps, so a match starting at offset `i`
exists iff the key's character at `i` equals the first query character
(case-insensitively) and the remaining query characters appear in order
afterwards, with the gap characters not crossing a newline (`.` does not
match `'\n'`).  `search` returns the least such offset; the empty query
matches at offset 0. -/

/-- `re.IGNORECASE` equality of two characters, modelled via `toLower`. -/
def ciEq (a b : Char) : Bool := a.toLower == b.toLower

/-- Existence of a match of the remaining query characters (in order, with
non-newline gaps) in the remaining key characters. -/
def subMatch : Chars → Chars → Bool
  | [], _ => true
  | _ :: _, [] => false
  | a :: as, b :: bs => (ciEq a b && subMatch as bs) || (b != '\n' && subMatch (a :: as) bs)

/-- Least offset at which a match of `a` then `as` can start. -/
def searchFrom (a : Char) (as : Chars) : Chars → Option Nat
  | [] => none
  | b :: bs =>
    if ciEq a b && subMatch as bs then some 0
    else (searchFrom a as bs).map (fun n => n + 1)

/-- `regex.search(key)` start offset (`r.start()`), `none` when no match. -/
def matchStart (q k : Chars) : Option Nat :=
  match q with
  | [] => some 0
  | a :: as => searchFrom a as k

/-- Lexicographic string order of Python (`str` comparison by code point). -/
def charsLE : Chars → Chars → Bool
  | [], _ => true
  | _ :: _, [] => false
  | a :: as, b :: bs => if a < b then true else if b < a then false else charsLE as bs

/-- Python tuple order on the sort key `(match offset, key string)`. -/
def rankLE (x y : Nat × Chars) : Bool :=
  if x.1 < y.1 then true else if y.1 < x.1 then false else charsLE x.2 y.2

/-- `finder(text, collection, key=key)`: keep the items whose key matches,
stably sorted by `(r.start(), key(item))` (Python `sorted` with that sort
key is a stable ascending merge sort). -/
def finder (text : Chars) (collection : List α) (key : α → Chars) : List α :=
  let suggestions := collection.filterMap fun item =>
    match matchStart text (key item) with
    | some off => some (off, item)
    | none => none
  (suggestions.mergeSort fun x y => rankLE (x.1, key x.2) (y.1, key y.2)).map fun t => t.2

/-- The lookup as invoked by `do_rtfm`: `finder(object, cache, key=fst)[:8]`. -/
def fuzzyLookup (q : Chars) (cache : List (Chars × Chars)) : List (Chars × Chars) :=
  (finder q cache (fun t => t.1)).take 8

/-! ## QueryEngine input normalization (src/rtfm.py line 219)

`re.sub(r'^(?:discord\.(?:ext\.)?)?(?:commands\.)?(.+)', r'\1', input)`.
The pattern is anchored at the start; the two optional groups are greedy
and backtrack in the order below, and `(.+)` needs at least one
non-newline character after the chosen groups.  The whole match is
replaced by group 1, so a successful match at prefix `p` just removes
`p`; if no combination admits a non-empty remainder the input is
returned unchanged. -/

def stripOk (s p : Chars) : Bool :=
  p.isPrefixOf s && !(s.drop p.length).isEmpty && (s.drop p.length).head? != some '\n'

/-- Prefix combinations in the regex backtracking order. -/
def queryPfx1 : Chars := "discord.ext.commands.".toList
def queryPfx2 : Chars := "discord.ext.".toList
def queryPfx3 : Chars := "discord.commands.".toList
def queryPfx4 : Chars := "discord.".toList
def queryPfx5 : Chars := "commands.".toList

def stripQuery (s : Chars) : Chars :=
  if stripOk s queryPfx1 then s.drop queryPfx1.length
  else if stripOk s queryPfx2 then s.drop queryPfx2.length
  else if stripOk s queryPfx3 then s.drop queryPfx3.length
  else if stripOk s queryPfx4 then s.drop queryPfx4.length
  else if stripOk s queryPfx5 then s.drop queryPfx5.length
  else s

/-- `do_rtfm`'s match computation: normalize the input, then look up. -/
def doRtfmMatches (input : Chars) (cache : List (Chars × Chars)) : List (Chars × Chars) :=
  fuzzyLookup (stripQuery input) cache

/-! ## InventoryEntryParser: `parse_object_inv` (src/rtfm.py lines 151-182) -/

/-- Python `str.replace(pat, '')`: remove every occurrence of `pat`,
scanning left to right, non-overlapping.  The fuel argument makes the
recursion structural; with a non-empty pattern each step either drops at
least one character or keeps one, so `s.length + 1` fuel always
suffices (fuel irrelevance is proved below).  Both patterns used by the
source are non-empty; for an empty pattern this model returns the string
unchanged. -/
def replaceAllF : Nat → Chars → Chars → Chars
  | 0, _, s => s
  | _ + 1, _, [] => []
  | fuel + 1, pat, c :: cs =>
    if pat.isPrefixOf (c :: cs) then replaceAllF fuel pat ((c :: cs).drop pat.length)
    else c :: replaceAllF fuel pat cs

def replaceAll (pat s : Chars) : Chars := replaceAllF (s.length + 1) pat s

def discordExtDot : Chars := "discord.ext.commands.".toList
def discordDot : Chars := "discord.".toList

/-- Line 180: `key.replace('discord.ext.commands.', '').replace('discord.', '')`. -/
def stripDiscordKey (key : Chars) : Chars :=
  replaceAll discordDot (replaceAll discordExtDot key)

/-! The entry line grammar
`(?x)(.+?)\s+(\S*:\S*)\s+(-?\d+)\s+(\S+)\s+(.*)`, applied with
`entry_regex.match(line)` (anchored at the start, not at the end).
Hand-compilation: the lazy group `(.+?)` takes the shortest non-empty
newline-free candidate; after it each `\s+` must consume a whole maximal
whitespace run (a shorter run would leave a whitespace character for a
`\S` / digit piece), `(\S*:\S*)` must consume a whole maximal non-space
run that contains a colon, `(-?\d+)` is an optional minus and a maximal
digit run whose end must abut whitespace, `(\S+)` a whole non-empty
maximal non-space run, and `(.*)` takes the rest up to a newline. -/

def isSpaceChar (c : Char) : Bool := c.isWhitespace

/-- Match `\s+(\S*:\S*)\s+(-?\d+)\s+(\S+)\s+(.*)` against `rest`,
returning the four captured groups (directive, priority, location,
display name). -/
def tailMatch (rest : Chars) : Option (Chars × Chars × Chars × Chars) :=
  let (sp1, r1) := rest.span isSpaceChar
  if sp1.isEmpty then none else
  let (tok1, r2) := r1.span (fun c => !isSpaceChar c)
  if tok1.isEmpty || !tok1.contains ':' then none else
  let (sp2, r3) := r2.span isSpaceChar
  if sp2.isEmpty then none else
  let (neg, r3n) := match r3 with
    | '-' :: t => (['-'], t)
    | _ => (([] : Chars), r3)
  let (digits, r4) := r3n.span (fun c => c.isDigit)
  if digits.isEmpty then none else
  let (sp3, r5) := r4.span isSpaceChar
  if sp3.isEmpty then none else
  let (loc, r6) := r5.span (fun c => !isSpaceChar c)
  if loc.isEmpty then none else
  let (sp4, r7) := r6.span isSpaceChar
  if sp4.isEmpty then none else
  some (tok1, neg ++ digits, loc, r7.takeWhile (fun c => c != '\n'))

/-- Grow the lazy `(.+?)` group one character at a time (shortest first,
never past a newline) until the rest of the pattern matches. -/
def findSplit (g1 : Chars) : Chars → Option (Chars × Chars × Chars × Chars × Chars)
  | [] => none
  | c :: cs =>
    if c = '\n' then none
    else
      match tailMatch cs with
      | some (dir, prio, loc, disp) => some (g1 ++ [c], dir, prio, loc, disp)
      | none => findSplit (g1 ++ [c]) cs

/-- `entry_regex.match(line)`: the five captured groups
(name, directive, priority, location, display name), if any. -/
def parseEntryLine (line : Chars) : Option (Chars × Chars × Chars × Chars × Chars) :=
  findSplit [] line

/-- Python `directive.partition(':')` restricted to the two used fields:
text before the first colon and text after it (all of `directive` and
empty when there is no colon). -/
def partitionColon (s : Chars) : Chars × Chars :=
  match s.dropWhile (fun c => c != ':') with
  | [] => (s, [])
  | _ :: post => (s.takeWhile (fun c => c != ':'), post)

/-- Per-entry processing of `parse_object_inv` (lines 167-181), applied to
the five regex groups with the accumulated result dict. -/
def processFields (projname : Chars) (result : List (Chars × Chars))
    (fields : Chars × Chars × Chars × Chars × Chars) : List (Chars × Chars) :=
  let (name, directive, _prio, location, dispname) := fields
  let (domain, subdirective) := partitionColon directive
  if (directive == "py:module".toList && dictContains name result)
      || subdirective == "opcode".toList then result
  else if directive == "std:doc".toList || subdirective == "label".toList then result
  else
    let location := if location.getLast? == some '$' then location.dropLast ++ name else location
    let key := if dispname == ['-'] then name else dispname
    let pfx := if domain == "std".toList then subdirective ++ [':'] else ([] : Chars)
    let key := if projname == "discord.py".toList then stripDiscordKey key else key
    dictInsert (pfx ++ key) location result

/-- One iteration of the `for line in stream.read_compressed_lines()` loop
(line 163-164: the line is `rstrip`ped before matching). -/
def processLine (projname : Chars) (result : List (Chars × Chars)) (line : Chars) :
    List (Chars × Chars) :=
  match parseEntryLine (rstrip line) with
  | none => result
  | some fields => processFields projname result fields

/-- The whole entry loop of `parse_object_inv` over the decompressed lines. -/
def parseEntries (projname : Chars) (lines : List Chars) : List (Chars × Chars) :=
  lines.foldl (processLine projname) []

/-- Python `'zlib' in line` substring test. -/
def containsSub (pat : Chars) : Chars → Bool
  | [] => pat.isEmpty
  | c :: cs => pat.isPrefixOf (c :: cs) || containsSub pat cs

/-- The payload handed to `parse_object_inv`: the four header lines as
returned by `readline()` and the decompressed entry lines.  Decompression
itself is modelled in the stream-reader section. -/
structure Payload where
  invLine : Chars
  projLine : Chars
  verLine : Chars
  zlibLine : Chars
  body : List Chars

/-- `parse_object_inv` (lines 151-182): header validation, then the entry
loop.  A raised `RuntimeError` is modelled as `Except.error` with the
source's message. -/
def parseObjectInv (p : Payload) : Except Chars (List (Chars × Chars)) :=
  if rstrip p.invLine != "# Sphinx inventory version 2".toList then
    Except.error "Invalid objects.inv file version.".toList
  else
    let projname := (rstrip p.projLine).drop 11
    let _version := (rstrip p.verLine).drop 11
    if !containsSub "zlib".toList p.zlibLine then
      Except.error "Invalid objects.inv file, not z-lib compatible.".toList
    else
      Except.ok (parseEntries projname p.body)

/-! ## Cache building: `build_rtfm_lookup_table` (src/rtfm.py lines 189-216)

The whole `for key in missing_files` loop is wrapped in one
`try/except Exception`: the first raised exception prints one warning and
leaves the method, abandoning the rest of the list.  The per-key body:
if `rtfm_cache/<key>` is a file, load it as JSON; otherwise fetch
`RTFM_PAGE_TYPES[key] + '/objects.inv'` (a `KeyError` if `key` is not a
configured page type), and on status 200 parse the payload (which may
raise `RuntimeError`), record it in `rtfm_cache` and save it.  A non-200
status only prints and skips the key. -/

def RTFM_PAGE_TYPES : List (Chars × Chars) :=
  [("stable".toList, "https://discordpy.readthedocs.io/en/stable".toList),
   ("latest".toList, "https://discordpy.readthedocs.io/en/latest".toList),
   ("python".toList, "https://docs.python.org/3".toList)]

def CACHE_EXTENSION : Chars := "_cache.json".toList

inductive BuildError where
  | keyError (k : Chars)
  | runtimeError (msg : Chars)
deriving DecidableEq

abbrev CacheMap := List (Chars × List (Chars × Chars))

def cacheInsert (k : Chars) (v : List (Chars × Chars)) : CacheMap → CacheMap
  | [] => [(k, v)]
  | kv :: rest => if kv.1 == k then (k, v) :: rest else kv :: cacheInsert k v rest

def cacheContains (k : Chars) (c : CacheMap) : Bool :=
  c.any (fun kv => kv.1 == k)

def pagesLookup (k : Chars) : List (Chars × Chars) → Option Chars
  | [] => none
  | kv :: rest => if kv.1 == k then some kv.2 else pagesLookup k rest

/-- The ambient state the build loop reads: the files below the data
directory (already parsed, `none` when absent or unreadable) and the
response to the one HTTP GET per key (status code and payload). -/
structure World where
  localFile : Chars → Option (List (Chars × Chars))
  fetch : Chars → Nat × Payload

/-- The body of the build loop for a single key.  `Except.error` is an
exception escaping to the surrounding handler before `rtfm_cache` is
touched for this key. -/
def buildStep (w : World) (cache : CacheMap) (key : Chars) : Except BuildError CacheMap :=
  match w.localFile key with
  | some idx => Except.ok (cacheInsert key idx cache)
  | none =>
    match pagesLookup key RTFM_PAGE_TYPES with
    | none => Except.error (BuildError.keyError key)
    | some _url =>
      let (status, payload) := w.fetch key
      if status == 200 then
        match parseObjectInv payload with
        | Except.error msg => Except.error (BuildError.runtimeError msg)
        | Except.ok idx => Except.ok (cacheInsert key idx cache)
      else Except.ok cache

/-- `build_rtfm_lookup_table(missing_files)`: run the loop until the list
is exhausted or an exception is caught; the second component is the
warning printed by the `except` handler, if any. -/
def buildLookup (w : World) (missing : List Chars) (cache : CacheMap) :
    CacheMap × Option BuildError :=
  match missing with
  | [] => (cache, none)
  | k :: ks =>
    match buildStep w cache k with
    | Except.ok c => buildLookup w ks c
    | Except.error e => (cache, some e)

/-! ## Startup cache loading (src/rtfm.py `run`, lines 124-149)

After the build phase, `run` loads every `<key>_cache.json` file that
exists into `rtfm_cache` and then decides: all page types loaded — ready;
more than one but not all — ready with a warning (lines 138-146,
`STYLE_WARNING`); otherwise `sys.exit()` (lines 147-149). -/

/-- The cache-file loading loop of `run` (lines 126-131): `disk` maps a
file name to its parsed JSON content when the file exists. -/
def loadPhase (disk : Chars → Option (List (Chars × Chars))) (c0 : CacheMap) :
    CacheMap × List Chars :=
  RTFM_PAGE_TYPES.foldl
    (fun acc kv =>
      match disk (kv.1 ++ CACHE_EXTENSION) with
      | some idx => (cacheInsert kv.1 idx acc.1, acc.2 ++ [kv.1])
      | none => acc)
    (c0, [])

inductive StartupOutcome where
  | readyAll
  | readyPartial
  | fatal
deriving DecidableEq

/-- The decision of lines 133-149 as a function of the loaded cache. -/
def startupOutcome (cache : CacheMap) : StartupOutcome :=
  if cache.length == RTFM_PAGE_TYPES.length then StartupOutcome.readyAll
  else if 1 < cache.length && cache.length < RTFM_PAGE_TYPES.length then
    StartupOutcome.readyPartial
  else StartupOutcome.fatal

/-! ## InventoryStreamReader: `read_compressed_lines` (src/rtfm.py lines 71-79)

The decompressed byte stream arrives as a sequence of chunks (the
generator `read_compressed_chunks`); the reader accumulates a buffer,
emits every complete `'\n'`-terminated line, carries the remainder into
the next chunk, and silently drops whatever is left when the chunks run
out.  Bytes are modelled as characters. -/

/-- Split a buffer into its complete lines and the trailing remainder
(the `pos = buf.find(b'\n')` loop of lines 75-79). -/
def splitNl (buf : Chars) : List Chars × Chars :=
  match h : buf.dropWhile (fun c => c != '\n') with
  | [] => ([], buf)
  | _ :: rest =>
    let (ls, r) := splitNl rest
    (buf.takeWhile (fun c => c != '\n') :: ls, r)
termination_by buf.length
decreasing_by
  have hsub : List.Sublist (buf.dropWhile (fun c => c != '\n')) buf := List.dropWhile_sublist _
  have hlen := hsub.length_le
  rw [h] at hlen
  simp at hlen
  omega

/-- The reader loop: fold the chunks through the carry buffer. -/
def rclGo (buf : Chars) : List Chars → List Chars
  | [] => []
  | c :: cs =>
    let (ls, r) := splitNl (buf ++ c)
    ls ++ rclGo r cs

/-- `read_compressed_lines()` on a chunked stream. -/
def readCompressedLines (chunks : List Chars) : List Chars :=
  rclGo [] chunks

/-- The specification's description of the expected output: the
newline-terminated records of the whole stream — repeatedly emit the
segment before the next newline and stop, dropping the remainder, when no
newline is left. -/
def newlineRecords (s : Chars) : List Chars :=
  match h : s.dropWhile (fun c => c != '\n') with
  | [] => []
  | _ :: rest => s.takeWhile (fun c => c != '\n') :: newlineRecords rest
termination_by s.length
decreasing_by
  have hsub : List.Sublist (s.dropWhile (fun c => c != '\n')) s := List.dropWhile_sublist _
  have hlen := hsub.length_le
  rw [h] at hlen
  simp at hlen
  omega

/-- Reassemble newline-terminated lines (proof-support inverse of the
line splitting). -/
def joinNl (ls : List Chars) : Chars :=
  (ls.map (fun l => l ++ ['\n'])).flatten

/-! ## CacheStore: `save_cache` / `json` round-trip (src/rtfm.py 184-187, 126-131)

`save_cache` serializes the index dict with `json.dump` (default
arguments: ASCII-only output, separators `', '` and `': '`) and `run`
reads it back with `json.load`.  The encoder below reproduces
`json.dump` byte for byte on a flat string-to-string dict: ASCII
printable characters are literal, the short escapes `\" \\ \b \f \n \r
\t` are used where defined, every other character becomes `\uXXXX`
(a surrogate pair when above U+FFFF).  The decoder parses exactly the
strings the encoder emits, with `json.load`'s behavior on them. -/

def hexDig (n : Nat) : Char :=
  if n < 10 then Char.ofNat (48 + n) else Char.ofNat (87 + n)

def hex4 (n : Nat) : Chars :=
  [hexDig (n / 4096 % 16), hexDig (n / 256 % 16), hexDig (n / 16 % 16), hexDig (n % 16)]

def hexVal (c : Char) : Option Nat :=
  if 48 ≤ c.toNat ∧ c.toNat ≤ 57 then some (c.toNat - 48)
  else if 97 ≤ c.toNat ∧ c.toNat ≤ 102 then some (c.toNat - 87)
  else if 65 ≤ c.toNat ∧ c.toNat ≤ 70 then some (c.toNat - 55)
  else none

def decodeHex4 (a b c d : Char) : Option Nat :=
  match hexVal a, hexVal b, hexVal c, hexVal d with
  | some w, some x, some y, some z => some (4096 * w + 256 * x + 16 * y + z)
  | _, _, _, _ => none

/-- One character of `json.dump`'s ASCII string encoding. -/
def encodeChar (c : Char) : Chars :=
  if c = '\"' then ['\\', '\"']
  else if c = '\\' then ['\\', '\\']
  else if c = Char.ofNat 8 then ['\\', 'b']
  else if c = Char.ofNat 12 then ['\\', 'f']
  else if c = '\n' then ['\\', 'n']
  else if c = Char.ofNat 13 then ['\\', 'r']
  else if c = '\t' then ['\\', 't']
  else if 32 ≤ c.toNat ∧ c.toNat ≤ 126 then [c]
  else if c.toNat < 65536 then '\\' :: 'u' :: hex4 c.toNat
  else
    '\\' :: 'u' :: hex4 (55296 + (c.toNat - 65536) / 1024)
      ++ '\\' :: 'u' :: hex4 (56320 + (c.toNat - 65536) % 1024)

def encodeStr : Chars → Chars
  | [] => []
  | c :: cs => encodeChar c ++ encodeStr cs

def encodeEntry (kv : Chars × Chars) : Chars :=
  '\"' :: encodeStr kv.1 ++ '\"' :: ':' :: ' ' :: '\"' :: encodeStr kv.2 ++ ['\"']

def encodeRest : List (Chars × Chars) → Chars
  | [] => []
  | e :: es => ',' :: ' ' :: encodeEntry e ++ encodeRest es

/-- `json.dump` of the whole dict. -/
def encodeIndex (idx : List (Chars × Chars)) : Chars :=
  match idx with
  | [] => ['\x7b', '\x7d']
  | e :: es => '\x7b' :: encodeEntry e ++ encodeRest es ++ ['\x7d']

/-- Simple two-character escapes accepted by `json.load`. -/
def escChar (e : Char) : Option Char :=
  if e = '\"' then some '\"'
  else if e = '\\' then some '\\'
  else if e = '/' then some '/'
  else if e = 'b' then some (Char.ofNat 8)
  else if e = 'f' then some (Char.ofNat 12)
  else if e = 'n' then some '\n'
  else if e = 'r' then some (Char.ofNat 13)
  else if e = 't' then some '\t'
  else none

/-- Parse the hex escape after a `\u`, returning the decoded character
and the number of input characters consumed (4, or 10 when a surrogate
pair is combined).  A lone surrogate (which Python's `str` could hold but
`Char` cannot) is rejected — the encoder never emits one. -/
def parseUEscape : Chars → Option (Char × Nat)
  | a :: b :: c :: d :: rest =>
    match decodeHex4 a b c d with
    | none => none
    | some n =>
      if 55296 ≤ n ∧ n ≤ 56319 then
        match rest with
        | bs :: u2 :: a2 :: b2 :: c2 :: d2 :: _ =>
          if bs = '\\' ∧ u2 = 'u' then
            match decodeHex4 a2 b2 c2 d2 with
            | some m =>
              if 56320 ≤ m ∧ m ≤ 57343 then
                some (Char.ofNat (65536 + (n - 55296) * 1024 + (m - 56320)), 10)
              else none
            | none => none
          else none
        | _ => none
      else if 56320 ≤ n ∧ n ≤ 57343 then none
      else some (Char.ofNat n, 4)
  | _ => none

/-- Parse a JSON string body after the opening quote, returning the
decoded characters and the rest after the closing quote. -/
def parseJStringBody (s : Chars) : Option (Chars × Chars) :=
  match s with
  | [] => none
  | c :: rest =>
    if c = '\"' then some ([], rest)
    else if c = '\\' then
      match rest with
      | [] => none
      | e :: rest2 =>
        if e = 'u' then
          match parseUEscape rest2 with
          | some (ch, used) =>
            (parseJStringBody (rest2.drop used)).map (fun p => (ch :: p.1, p.2))
          | none => none
        else
          match escChar e with
          | some d => (parseJStringBody rest2).map (fun p => (d :: p.1, p.2))
          | none => none
    else if c.toNat < 32 then none
    else (parseJStringBody rest).map (fun p => (c :: p.1, p.2))
termination_by s.length
decreasing_by
  all_goals simp_arith [List.length_drop]

/-- Parse the `"key": "value"` members of the dict, separated by `", "`
and terminated by the closing brace at the end of the input (trailing
data after it is an error, as in `json.load`).  The fuel bounds the
number of members; the wrapper passes the input length, which always
suffices since every member occupies at least one character. -/
def parseMembersF : Nat → Chars → Option (List (Chars × Chars))
  | 0, _ => none
  | fuel + 1, s =>
    match s with
    | '\"' :: rest =>
      match parseJStringBody rest with
      | none => none
      | some (k, r1) =>
        match r1 with
        | ':' :: ' ' :: '\"' :: r2 =>
          match parseJStringBody r2 with
          | none => none
          | some (v, r3) =>
            match r3 with
            | ',' :: ' ' :: r4 => (parseMembersF fuel r4).map (fun ms => (k, v) :: ms)
            | ['\x7d'] => some [(k, v)]
            | _ => none
        | _ => none
    | _ => none

/-- `json.load` on the serialized dict. -/
def parseIndexJson (s : Chars) : Option (List (Chars × Chars)) :=
  match s with
  | ['\x7b', '\x7d'] => some []
  | '\x7b' :: rest => parseMembersF (s.length + 1) rest
  | _ => none

/-- `save_cache(name, cache)` (lines 184-187): write the serialized dict
to `<name>_cache.json`, overwriting; the file system is a map from file
name to content. -/
def save_cache (fs : Chars → Option Chars) (name : Chars) (cache : List (Chars × Chars)) :
    Chars → Option Chars :=
  fun path => if path == name ++ CACHE_EXTENSION then some (encodeIndex cache) else fs path

/-- The per-source load of `run` (lines 126-131): read
`<key>_cache.json` if present and `json.load` it. -/
def loadCachedIndex (fs : Chars → Option Chars) (key : Chars) :
    Option (List (Chars × Chars)) :=
  match fs (key ++ CACHE_EXTENSION) with
  | some content => parseIndexJson content
  | none => none

/-! ## Concrete instances used by witnesses and counterexamples -/

/-- A payload whose version header line is malformed. -/
def badPayload : Payload :=
  ⟨"bogus".toList, "# Project: x".toList, "# Version: 1".toList, "zlib".toList, []⟩

/-- A well-formed payload for the `python` source with one entry line. -/
def goodPayload : Payload :=
  ⟨"# Sphinx inventory version 2".toList, "# Project: python".toList,
   "# Version: 3".toList, "The remainder of this file is compressed using zlib.".toList,
   ["json.dumps py:function 1 library/json.html#$ -".toList]⟩

/-- World for the build counterexample: no local files; fetching `latest`
yields the malformed payload, everything else the well-formed one. -/
def c2World : World :=
  ⟨fun _ => none, fun k => if k == "latest".toList then (200, badPayload) else (200, goodPayload)⟩

/-- Two inventory lines defining the same module with different
locations. -/
def moduleLine1 : Chars := "discord.utils py:module 1 x.html -".toList
def moduleLine2 : Chars := "discord.utils py:module 1 y.html -".toList

/-- A disk with exactly one cache file present. -/
def c4Disk : Chars → Option (List (Chars × Chars)) :=
  fun path => if path == "stable".toList ++ CACHE_EXTENSION then some [] else none

/-- Twenty candidates that all match any query whose characters appear in
order in `kNN`. -/
def c1Coll : List (Chars × Chars) :=
  (List.range 20).map (fun i => ('k' :: Nat.toDigits 10 i, "loc.html".toList))

/-! # Theorems -/

/-! ## Order lemmas for the sort key -/

theorem charsLE_total : ∀ x y : Chars, (charsLE x y || charsLE y x) = true
  | [], y => by simp [charsLE]
  | a :: as, [] => by simp [charsLE]
  | a :: as, b :: bs => by
    by_cases h1 : a < b
    · simp [charsLE, h1, lt_asymm h1]
    · by_cases h2 : b < a
      · simp [charsLE, h1, h2]
      · simpa [charsLE, h1, h2] using charsLE_total as bs

theorem charsLE_trans : ∀ x y z : Chars,
    charsLE x y = true → charsLE y z = true → charsLE x z = true
  | [], _, _, _, _ => by simp [charsLE]
  | a :: as, [], _, hxy, _ => by simp [charsLE] at hxy
  | a :: as, b :: bs, [], _, hyz => by simp [charsLE] at hyz
  | a :: as, b :: bs, c :: cs, hxy, hyz => by
    simp only [charsLE] at hxy hyz ⊢
    by_cases hab : a < b
    · by_cases hbc : b < c
      · simp [lt_trans hab hbc]
      · by_cases hcb : c < b
        · simp [hbc, hcb] at hyz
        · have hbceq : b = c := le_antisymm (not_lt.mp hcb) (not_lt.mp hbc)
          subst hbceq
          simp [hab]
    · by_cases hba : b < a
      · simp [hab, hba] at hxy
      · have habeq : a = b := le_antisymm (not_lt.mp hba) (not_lt.mp hab)
        subst habeq
        simp [lt_irrefl] at hxy
        by_cases hac : a < c
        · simp [hac]
        · by_cases hca : c < a
          · simp [hac, hca] at hyz
          · have haceq : a = c := le_antisymm (not_lt.mp hca) (not_lt.mp hac)
            subst haceq
            simp [lt_irrefl] at hyz ⊢
            exact charsLE_trans as bs cs hxy hyz

theorem rankLE_total (x y : Nat × Chars) : (rankLE x y || rankLE y x) = true := by
  unfold rankLE
  by_cases h1 : x.1 < y.1
  · simp [h1, Nat.lt_asymm h1]
  · by_cases h2 : y.1 < x.1
    · simp [h1, h2]
    · simpa [h1, h2] using charsLE_total x.2 y.2

theorem rankLE_trans (x y z : Nat × Chars)
    (hxy : rankLE x y = true) (hyz : rankLE y z = true) : rankLE x z = true := by
  unfold rankLE at *
  by_cases hab : x.1 < y.1
  · by_cases hbc : y.1 < z.1
    · simp [Nat.lt_trans hab hbc]
    · by_cases hcb : z.1 < y.1
      · simp [hbc, hcb] at hyz
      · have h : x.1 < z.1 := by omega
        simp [h]
  · by_cases hba : y.1 < x.1
    · simp [hab, hba] at hxy
    · simp [hab, hba] at hxy
      by_cases hbc : y.1 < z.1
      · have h : x.1 < z.1 := by omega
        simp [h]
      · by_cases hcb : z.1 < y.1
        · simp [hbc, hcb] at hyz
        · simp [hbc, hcb] at hyz
          have h1 : ¬ x.1 < z.1 := by omega
          have h2 : ¬ z.1 < x.1 := by omega
          simp [h1, h2]
          exact charsLE_trans _ _ _ hxy hyz

/-! ## FuzzyMatcher lemmas -/

theorem finder_suggestions_snd (q : Chars) (coll : List α) (key : α → Chars) :
    (coll.filterMap fun item =>
        match matchStart q (key item) with
        | some off => some (off, item)
        | none => none).map (fun t => t.2)
      = coll.filter (fun it => (matchStart q (key it)).isSome) := by
  induction coll with
  | nil => simp
  | cons a l ih =>
    cases h : matchStart q (key a) with
    | none => simpa [List.filterMap_cons, h, List.filter_cons] using ih
    | some off => simpa [List.filterMap_cons, h, List.filter_cons] using ih

theorem finder_mem_offset (q : Chars) (coll : List α) (key : α → Chars)
    (x : Nat × α)
    (hx : x ∈ (coll.filterMap fun item =>
        match matchStart q (key item) with
        | some off => some (off, item)
        | none => none)) :
    matchStart q (key x.2) = some x.1 := by
  rcases List.mem_filterMap.mp hx with ⟨a, _, ha⟩
  cases h : matchStart q (key a) with
  | none => rw [h] at ha; cases ha
  | some off =>
    rw [h] at ha
    cases ha
    exact h

theorem finder_perm (q : Chars) (coll : List α) (key : α → Chars) :
    (finder q coll key).Perm (coll.filter (fun it => (matchStart q (key it)).isSome)) := by
  unfold finder
  rw [← finder_suggestions_snd q coll key]
  exact (List.mergeSort_perm _ _).map _

theorem finder_sorted (q : Chars) (coll : List α) (key : α → Chars) :
    List.Pairwise
      (fun a b => rankLE ((matchStart q (key a)).getD 0, key a)
        ((matchStart q (key b)).getD 0, key b) = true)
      (finder q coll key) := by
  unfold finder
  rw [List.pairwise_map]
  have hsorted := @List.sorted_mergeSort (Nat × α)
    (fun x y => rankLE (x.1, key x.2) (y.1, key y.2))
    (fun a b c hab hbc => rankLE_trans _ _ _ hab hbc)
    (fun a b => rankLE_total _ _)
    (coll.filterMap fun item =>
      match matchStart q (key item) with
      | some off => some (off, item)
      | none => none)
  refine hsorted.imp_of_mem ?_
  intro a b ha hb hle
  have ha2 := finder_mem_offset q coll key a ((List.mergeSort_perm _ _).subset ha)
  have hb2 := finder_mem_offset q coll key b ((List.mergeSort_perm _ _).subset hb)
  rw [ha2, hb2]
  exact hle

/-- C1.  For every query and candidate collection, the fuzzy lookup is the
sorted match list truncated to its first 8 elements: the retained
elements are exactly the matching candidates (as a permutation of the
filter), ordered by the pair (first match offset, key) under the Python
tuple order, and a collection with 20 matching candidates yields exactly
8 results. -/
theorem c1_fuzzy_lookup_ranked_truncated (q : Chars) (coll : List (Chars × Chars)) :
    fuzzyLookup q coll = (finder q coll (fun t => t.1)).take 8
  ∧ (fuzzyLookup q coll).length ≤ 8
  ∧ (finder q coll (fun t => t.1)).Perm
      (coll.filter (fun it => (matchStart q it.1).isSome))
  ∧ List.Pairwise
      (fun a b => rankLE ((matchStart q a.1).getD 0, a.1)
        ((matchStart q b.1).getD 0, b.1) = true)
      (finder q coll (fun t => t.1))
  ∧ ((coll.filter (fun it => (matchStart q it.1).isSome)).length = 20 →
      (fuzzyLookup q coll).length = 8) := by
  refine ⟨rfl, ?_, finder_perm q coll _, finder_sorted q coll _, ?_⟩
  · simp [fuzzyLookup, List.length_take]
  · intro h20
    have hlen : (finder q coll (fun t => t.1)).length = 20 :=
      (finder_perm q coll _).length_eq.trans h20
    simp [fuzzyLookup, List.length_take, hlen]

/-- Witness for C1 at a concrete collection of 20 matching candidates. -/
theorem c1_witness :
    (c1Coll.filter (fun it => (matchStart [] it.1).isSome)).length = 20
  ∧ (fuzzyLookup [] c1Coll).length = 8 :=
  ⟨by decide, (c1_fuzzy_lookup_ranked_truncated [] c1Coll).2.2.2.2 (by decide)⟩

/-- C7.  The empty query matches every key at offset 0, so the fuzzy
matcher discards nothing: its output is a permutation of the whole
collection, ordered by the key string alone. -/
theorem c7_empty_query_matches_all (coll : List (Chars × Chars)) :
    (∀ k : Chars, matchStart [] k = some 0)
  ∧ (finder [] coll (fun t => t.1)).Perm coll
  ∧ List.Pairwise (fun a b => charsLE a.1 b.1 = true) (finder [] coll (fun t => t.1)) := by
  refine ⟨fun _ => rfl, ?_, ?_⟩
  · have := finder_perm [] coll (fun t : Chars × Chars => t.1)
    simpa [matchStart] using this
  · have := finder_sorted [] coll (fun t : Chars × Chars => t.1)
    refine this.imp_of_mem ?_
    intro a b _ _ h
    simpa [matchStart, rankLE] using h

/-! ## Query normalization lemmas (C8, C10) -/

/-- C8.  For a bare symbol name (non-empty, not itself starting with one
of the strippable continuation segments or a newline), prepending any of
the five strippable namespace combinations is undone by the query
normalization. -/
theorem c8_query_namespace_stripped (name : Chars) (hne : name ≠ [])
    (hnl : name.head? ≠ some '\n')
    (hext : ¬ "ext.".toList <+: name) (hcmd : ¬ "commands.".toList <+: name) :
    stripQuery (queryPfx1 ++ name) = name
  ∧ stripQuery (queryPfx2 ++ name) = name
  ∧ stripQuery (queryPfx3 ++ name) = name
  ∧ stripQuery (queryPfx4 ++ name) = name
  ∧ stripQuery (queryPfx5 ++ name) = name := by
  have hext2 : ¬ ['e', 'x', 't', '.'] <+: name := fun h => hext h
  have hcmd2 : ¬ ['c', 'o', 'm', 'm', 'a', 'n', 'd', 's', '.'] <+: name := fun h => hcmd h
  have hextcmd2 : ¬ ['e', 'x', 't', '.', 'c', 'o', 'm', 'm', 'a', 'n', 'd', 's', '.'] <+: name :=
    fun hc => hext (List.IsPrefix.trans (by decide) hc)
  refine ⟨?_, ?_, ?_, ?_, ?_⟩ <;>
    simp [stripQuery, stripOk, queryPfx1, queryPfx2, queryPfx3, queryPfx4, queryPfx5,
      List.isPrefixOf_iff_prefix, hne, hnl, hext2, hcmd2, hextcmd2]

/-- C10.  Query normalization never empties a non-empty input (a pure
namespace input such as `discord.` is returned unchanged). -/
theorem c10_strip_keeps_nonempty (s : Chars) (hne : s ≠ []) :
    stripQuery s ≠ [] ∧ stripQuery "discord.".toList = "discord.".toList := by
  have hok : ∀ p : Chars, stripOk s p = true → s.drop p.length ≠ [] := by
    intro p hp
    unfold stripOk at hp
    simp only [Bool.and_eq_true, Bool.not_eq_true'] at hp
    intro hdrop
    rw [hdrop] at hp
    simp at hp
  constructor
  · unfold stripQuery
    split_ifs with h1 h2 h3 h4 h5
    · exact hok _ h1
    · exact hok _ h2
    · exact hok _ h3
    · exact hok _ h4
    · exact hok _ h5
    · exact hne
  · decide

/-- Witness for C8 at the specification's example name. -/
theorem c8_witness :
    stripQuery (queryPfx1 ++ "Bot".toList) = "Bot".toList
  ∧ stripQuery (queryPfx2 ++ "Bot".toList) = "Bot".toList
  ∧ stripQuery (queryPfx3 ++ "Bot".toList) = "Bot".toList
  ∧ stripQuery (queryPfx4 ++ "Bot".toList) = "Bot".toList
  ∧ stripQuery (queryPfx5 ++ "Bot".toList) = "Bot".toList :=
  c8_query_namespace_stripped "Bot".toList (by decide) (by decide) (by decide) (by decide)

/-- Witness for C10 at a concrete input. -/
theorem c10_witness :
    stripQuery "x".toList ≠ [] ∧ stripQuery "discord.".toList = "discord.".toList :=
  c10_strip_keeps_nonempty "x".toList (by decide)

/-! ## Key namespace stripping lemmas (C9) -/

theorem replaceAllF_fuel (pat : Chars) (hpat : pat ≠ []) :
    ∀ (fuel1 : Nat) (fuel2 : Nat) (s : Chars), s.length < fuel1 → s.length < fuel2 →
      replaceAllF fuel1 pat s = replaceAllF fuel2 pat s := by
  intro fuel1
  induction fuel1 with
  | zero => intro fuel2 s h1 _; omega
  | succ f1 ih =>
    intro fuel2 s h1 h2
    cases fuel2 with
    | zero => omega
    | succ f2 =>
      cases s with
      | nil => rfl
      | cons c cs =>
        have hplen : 1 ≤ pat.length := by
          cases pat with
          | nil => exact absurd rfl hpat
          | cons p ps => simp
        simp only [replaceAllF]
        split
        · apply ih
          · simp only [List.length_drop, List.length_cons] at *
            omega
          · simp only [List.length_drop, List.length_cons] at *
            omega
        · have := ih f2 cs (by simp at h1; omega) (by simp at h2; omega)
          rw [this]

theorem replaceAll_nil (pat : Chars) : replaceAll pat [] = [] := rfl

theorem replaceAll_cons_pos (p c : Char) (ps cs : Chars)
    (h : (p :: ps).isPrefixOf (c :: cs) = true) :
    replaceAll (p :: ps) (c :: cs) = replaceAll (p :: ps) ((c :: cs).drop (p :: ps).length) := by
  unfold replaceAll
  have step : replaceAllF (cs.length + 1 + 1) (p :: ps) (c :: cs)
      = replaceAllF (cs.length + 1) (p :: ps) ((c :: cs).drop (p :: ps).length) := by
    simp only [replaceAllF, h, if_true]
  rw [show (c :: cs).length + 1 = cs.length + 1 + 1 from by simp, step]
  apply replaceAllF_fuel _ (by simp)
  · simp only [List.length_drop, List.length_cons]
    omega
  · simp only [List.length_drop, List.length_cons]
    omega

theorem replaceAll_cons_neg (p c : Char) (ps cs : Chars)
    (h : (p :: ps).isPrefixOf (c :: cs) = false) :
    replaceAll (p :: ps) (c :: cs) = c :: replaceAll (p :: ps) cs := by
  unfold replaceAll
  have step : replaceAllF (cs.length + 1 + 1) (p :: ps) (c :: cs)
      = c :: replaceAllF (cs.length + 1) (p :: ps) cs := by
    simp only [replaceAllF, h]
    simp
  rw [show (c :: cs).length + 1 = cs.length + 1 + 1 from by simp, step]

theorem replaceAll_not_head (p : Char) (ps : Chars) :
    ∀ s : Chars, p ∉ s → replaceAll (p :: ps) s = s := by
  intro s
  induction s with
  | nil => exact fun _ => rfl
  | cons c cs ih =>
    intro h
    simp only [List.mem_cons, not_or] at h
    have hpre : (p :: ps).isPrefixOf (c :: cs) = false := by
      simp [List.isPrefixOf_cons₂, beq_eq_false_iff_ne, h.1]
    rw [replaceAll_cons_neg _ _ _ _ hpre, ih h.2]

theorem replaceAll_split (p : Char) (ps : Chars) :
    ∀ u v : Chars, p ∉ u →
      replaceAll (p :: ps) (u ++ (p :: ps) ++ v) = u ++ replaceAll (p :: ps) v := by
  intro u
  induction u with
  | nil =>
    intro v _
    have hpre : (p :: ps).isPrefixOf (p :: (ps ++ v)) = true := by
      simp [List.isPrefixOf_iff_prefix]
    simp only [List.nil_append]
    rw [show (p :: ps) ++ v = p :: (ps ++ v) from rfl,
      replaceAll_cons_pos _ _ _ _ hpre]
    congr 1
    rw [show p :: (ps ++ v) = (p :: ps) ++ v from rfl]
    exact List.drop_left _ _
  | cons c cs ih =>
    intro v hu
    simp only [List.mem_cons, not_or] at hu
    have hpre : (p :: ps).isPrefixOf (c :: (cs ++ (p :: ps) ++ v)) = false := by
      simp [List.isPrefixOf_cons₂, beq_eq_false_iff_ne, hu.1]
    rw [show (c :: cs) ++ (p :: ps) ++ v = c :: (cs ++ (p :: ps) ++ v) from by simp,
      replaceAll_cons_neg _ _ _ _ hpre, ih v hu.2]
    simp

theorem containsSub_not_head (p : Char) (ps : Chars) :
    ∀ s : Chars, p ∉ s → containsSub (p :: ps) s = false := by
  intro s
  induction s with
  | nil => intro _; simp [containsSub]
  | cons c cs ih =>
    intro h
    simp only [List.mem_cons, not_or] at h
    have hpre : (p :: ps).isPrefixOf (c :: cs) = false := by
      simp [List.isPrefixOf_cons₂, beq_eq_false_iff_ne, h.1]
    simp [containsSub, hpre, ih h.2]

theorem containsSub_append_not_head (p : Char) (ps : Chars) :
    ∀ u t : Chars, p ∉ u → containsSub (p :: ps) (u ++ t) = containsSub (p :: ps) t := by
  intro u
  induction u with
  | nil => intro t _; simp
  | cons c cs ih =>
    intro t h
    simp only [List.mem_cons, not_or] at h
    have hpre : (p :: ps).isPrefixOf (c :: (cs ++ t)) = false := by
      simp [List.isPrefixOf_cons₂, beq_eq_false_iff_ne, h.1]
    have hstep : containsSub (p :: ps) ((c :: cs) ++ t)
        = ((p :: ps).isPrefixOf (c :: (cs ++ t)) || containsSub (p :: ps) (cs ++ t)) := by
      rw [List.cons_append]
      rfl
    rw [hstep, hpre, Bool.false_or, ih t h.2]

theorem replaceAll_of_not_contains (p : Char) (ps : Chars) :
    ∀ s : Chars, containsSub (p :: ps) s = false → replaceAll (p :: ps) s = s := by
  intro s
  induction s with
  | nil => intro _; rfl
  | cons c cs ih =>
    intro h
    simp only [containsSub, Bool.or_eq_false_iff] at h
    rw [replaceAll_cons_neg _ _ _ _ h.1, ih h.2]

theorem containsSub_extDot_after_dot (v : Chars) (hv : 'd' ∉ v) :
    containsSub discordExtDot (discordDot ++ v) = false := by
  have h1 : ("ext.commands.".toList).isPrefixOf v = false := by
    cases hc : ("ext.commands.".toList).isPrefixOf v with
    | false => rfl
    | true =>
      have hpfx := List.isPrefixOf_iff_prefix.mp hc
      have : 'd' ∈ v := hpfx.subset (by decide)
      exact absurd this hv
  have hvc : containsSub discordExtDot v = false := by
    rw [show discordExtDot = 'd' :: "iscord.ext.commands.".toList from rfl]
    exact containsSub_not_head _ _ v hv
  simp only [discordExtDot, discordDot] at *
  simp [containsSub, List.isPrefixOf_cons₂]
  exact ⟨h1, hvc⟩

/-- C9.  Key normalization for the `discord.py` project removes the
namespace substrings anywhere in the key, not only as a leading path:
around any occurrence flanked by `d`-free context the occurrence is
deleted, and the concrete key `a.discord.b` becomes `a.b`. -/
theorem c9_strip_removes_all_occurrences (u v : Chars) (hu : 'd' ∉ u) (hv : 'd' ∉ v) :
    stripDiscordKey (u ++ discordDot ++ v) = u ++ v
  ∧ stripDiscordKey (u ++ discordExtDot ++ v) = u ++ v
  ∧ stripDiscordKey "a.discord.b".toList = "a.b".toList := by
  have hdot : discordDot = 'd' :: "iscord.".toList := rfl
  have hext : discordExtDot = 'd' :: "iscord.ext.commands.".toList := rfl
  refine ⟨?_, ?_, by decide⟩
  · unfold stripDiscordKey
    have hinner : replaceAll discordExtDot (u ++ discordDot ++ v) = u ++ discordDot ++ v := by
      rw [hext]
      apply replaceAll_of_not_contains
      rw [← hext, List.append_assoc, hext]
      rw [containsSub_append_not_head _ _ u _ hu, ← hext]
      exact containsSub_extDot_after_dot v hv
    rw [hinner, hdot, replaceAll_split _ _ u v hu,
      replaceAll_not_head _ _ v hv]
  · unfold stripDiscordKey
    have hinner : replaceAll discordExtDot (u ++ discordExtDot ++ v) = u ++ v := by
      rw [hext, replaceAll_split _ _ u v hu, replaceAll_not_head _ _ v hv]
    rw [hinner, hdot]
    apply replaceAll_of_not_contains
    rw [containsSub_append_not_head _ _ u _ hu]
    exact containsSub_not_head _ _ v hv

/-- Witness for C9 at the concrete decomposition of `a.discord.b`. -/
theorem c9_witness :
    stripDiscordKey ("a.".toList ++ discordDot ++ "b".toList) = "a.".toList ++ "b".toList
  ∧ stripDiscordKey ("a.".toList ++ discordExtDot ++ "b".toList) = "a.".toList ++ "b".toList
  ∧ stripDiscordKey "a.discord.b".toList = "a.b".toList :=
  c9_strip_removes_all_occurrences "a.".toList "b".toList (by decide) (by decide)

/-! ## Module dedup (C3)

The duplicate check of line 169 is `name in result`, i.e. it tests the
raw entry name against the stored keys.  When the stored key equals the
name (the usual case without namespace stripping) this makes the first
module entry win; for the `discord.py` project the stored key is the
stripped name, the check misses, and the later duplicate overwrites. -/

/-- C3 counterexample: for the namespace-stripping source, the second
`py:module` entry for `discord.utils` overwrites the first, so the built
index holds the second location, not the first. -/
theorem c3_counterexample :
    dictLookup "utils".toList (parseEntries "discord.py".toList [moduleLine1, moduleLine2])
      = some "y.html".toList
  ∧ parseEntries "discord.py".toList [moduleLine1] = [("utils".toList, "x.html".toList)] := by
  constructor <;> decide

/-- C3 as amended.  A later `py:module` entry whose raw name is already a
stored key produces no change at all (this is the first-wins mechanism),
and on a non-stripping source (`python` project) the two-duplicate stream
keeps the first location; the stripping source falls outside this because
its stored key differs from the raw name. -/
theorem c3_module_dedup_first_wins :
    (∀ (projname : Chars) (r : List (Chars × Chars)) (name prio loc disp : Chars),
      dictContains name r = true →
      processFields projname r (name, "py:module".toList, prio, loc, disp) = r)
  ∧ dictLookup "discord.utils".toList (parseEntries "python".toList [moduleLine1, moduleLine2])
      = some "x.html".toList := by
  constructor
  · intro projname r name prio loc disp h
    simp [processFields, h]
  · decide

/-- Witness for the amended C3 at a concrete result dict. -/
theorem c3_witness :
    dictContains "m".toList [("m".toList, "a.html".toList)] = true
  ∧ processFields "python".toList [("m".toList, "a.html".toList)]
      ("m".toList, "py:module".toList, "1".toList, "b.html".toList, "-".toList)
      = [("m".toList, "a.html".toList)] :=
  ⟨by decide,
    c3_module_dedup_first_wins.1 "python".toList [("m".toList, "a.html".toList)]
      "m".toList "1".toList "b.html".toList "-".toList (by decide)⟩

/-! ## Build loop error handling (C2)

The `try` of `build_rtfm_lookup_table` wraps the whole `for` loop, so the
first raised `RuntimeError` (malformed header) prints one warning and
abandons every source after the failing one. -/

/-- C2 counterexample: with `latest` malformed and `python` fetchable and
well-formed, building `[latest, python]` stops at `latest` with the
warning and never builds `python`, although building `[python]` alone
succeeds. -/
theorem c2_counterexample :
    buildLookup c2World ["latest".toList, "python".toList] []
      = ([], some (BuildError.runtimeError "Invalid objects.inv file version.".toList))
  ∧ (buildLookup c2World ["python".toList] []).1
      = [("python".toList,
          [("json.dumps".toList, "library/json.html#json.dumps".toList)])] := by
  constructor <;> decide

/-- C2 as amended.  A `FormatError` raised while building one source is
caught and reported as a single warning, but it aborts the whole loop:
the result is the cache accumulated before the failing source, and the
sources after it in the build list are never processed (the result does
not depend on them). -/
theorem c2_format_error_aborts_rest :
    ∀ (w : World) (pre : List Chars) (post : List Chars) (k : Chars)
      (c0 c1 : CacheMap) (e : BuildError),
      buildLookup w pre c0 = (c1, none) →
      buildStep w c1 k = Except.error e →
      buildLookup w (pre ++ k :: post) c0 = (c1, some e) := by
  intro w pre
  induction pre with
  | nil =>
    intro post k c0 c1 e h1 h2
    simp only [buildLookup] at h1
    cases h1
    simp only [List.nil_append, buildLookup, h2]
  | cons a pre ih =>
    intro post k c0 c1 e h1 h2
    simp only [buildLookup] at h1 ⊢
    cases hstep : buildStep w c0 a with
    | ok c =>
      rw [hstep] at h1
      exact ih post k c c1 e h1 h2
    | error e2 =>
      rw [hstep] at h1
      simp at h1

/-- Witness for the amended C2 at the concrete two-source world. -/
theorem c2_witness :
    buildLookup c2World ["latest".toList, "python".toList] []
      = ([], some (BuildError.runtimeError "Invalid objects.inv file version.".toList)) := by
  have h := c2_format_error_aborts_rest c2World [] ["python".toList] "latest".toList [] []
    (BuildError.runtimeError "Invalid objects.inv file version.".toList) rfl rfl
  simpa using h

/-! ## Startup fatal condition (C4) -/

/-- C4.  After the cache-loading phase, the startup decision is fatal
exactly when fewer than two sources are loaded; with two loaded (but not
all three) it continues with the warning branch, and with all three it is
plainly ready. -/
theorem c4_fatal_iff_fewer_than_two (cache : CacheMap)
    (hle : cache.length ≤ RTFM_PAGE_TYPES.length) :
    (startupOutcome cache = StartupOutcome.fatal ↔ cache.length < 2)
  ∧ (2 ≤ cache.length → cache.length < RTFM_PAGE_TYPES.length →
      startupOutcome cache = StartupOutcome.readyPartial)
  ∧ (cache.length = RTFM_PAGE_TYPES.length →
      startupOutcome cache = StartupOutcome.readyAll) := by
  have h3 : RTFM_PAGE_TYPES.length = 3 := rfl
  simp only [startupOutcome, h3]
  rw [h3] at hle
  generalize cache.length = n at hle ⊢
  interval_cases n <;> decide

/-- Witness for C4: a disk with a single cache file loads one source and
the decision is fatal. -/
theorem c4_witness :
    startupOutcome (loadPhase c4Disk []).1 = StartupOutcome.fatal
  ∧ (loadPhase c4Disk []).1.length < 2 := by
  have h := c4_fatal_iff_fewer_than_two (loadPhase c4Disk []).1 (by decide)
  exact ⟨h.1.mpr (by decide), by decide⟩

/-! ## Stream reader lemmas (C5) -/

theorem splitNl_eq_of_nil (buf : Chars)
    (h : buf.dropWhile (fun c => c != '\n') = []) : splitNl buf = ([], buf) := by
  unfold splitNl
  split
  · rfl
  · rename_i heq
    rw [h] at heq
    cases heq

theorem splitNl_eq_of_cons (buf : Chars) (c : Char) (rest : Chars)
    (h : buf.dropWhile (fun c => c != '\n') = c :: rest) :
    splitNl buf
      = (buf.takeWhile (fun c => c != '\n') :: (splitNl rest).1, (splitNl rest).2) := by
  conv_lhs => rw [splitNl]
  split
  · rename_i heq
    rw [h] at heq
    cases heq
  · rename_i x xs heq
    rw [h] at heq
    cases heq
    rcases hq : splitNl rest with ⟨ls, r⟩
    simp [hq]

theorem newlineRecords_eq_of_nil (s : Chars)
    (h : s.dropWhile (fun c => c != '\n') = []) : newlineRecords s = [] := by
  unfold newlineRecords
  split
  · rfl
  · rename_i heq
    rw [h] at heq
    cases heq

theorem newlineRecords_eq_of_cons (s : Chars) (c : Char) (rest : Chars)
    (h : s.dropWhile (fun c => c != '\n') = c :: rest) :
    newlineRecords s = s.takeWhile (fun c => c != '\n') :: newlineRecords rest := by
  conv_lhs => rw [newlineRecords]
  split
  · rename_i heq
    rw [h] at heq
    cases heq
  · rename_i x xs heq
    rw [h] at heq
    cases heq
    rfl

theorem newlineRecords_of_no_nl (s : Chars) (h : '\n' ∉ s) : newlineRecords s = [] := by
  apply newlineRecords_eq_of_nil
  rw [List.dropWhile_eq_nil_iff]
  intro x hx
  simp only [bne_iff_ne, ne_eq]
  intro heq
  rw [heq] at hx
  exact h hx

theorem splitNl_spec : ∀ buf : Chars,
    '\n' ∉ (splitNl buf).2
  ∧ joinNl (splitNl buf).1 ++ (splitNl buf).2 = buf
  ∧ (∀ l ∈ (splitNl buf).1, '\n' ∉ l) := by
  suffices hstrong : ∀ (n : Nat) (buf : Chars), buf.length = n →
      '\n' ∉ (splitNl buf).2
    ∧ joinNl (splitNl buf).1 ++ (splitNl buf).2 = buf
    ∧ (∀ l ∈ (splitNl buf).1, '\n' ∉ l) by
    intro buf
    exact hstrong buf.length buf rfl
  intro n
  induction n using Nat.strong_induction_on with
  | _ n ih =>
    intro buf hn
    cases hdrop : buf.dropWhile (fun c => c != '\n') with
    | nil =>
      rw [splitNl_eq_of_nil buf hdrop]
      refine ⟨?_, by simp [joinNl], by simp⟩
      intro hmem
      have hall := List.dropWhile_eq_nil_iff.mp hdrop _ hmem
      simp at hall
    | cons c rest =>
      have hc : c = '\n' := by
        have hh := List.head?_dropWhile_not (fun c => c != '\n') buf
        rw [hdrop] at hh
        simpa using hh
      subst hc
      have hlen : rest.length < n := by
        have hsub0 : List.Sublist (buf.dropWhile (fun c => c != '\n')) buf := List.dropWhile_sublist _
        have hsub := hsub0.length_le
        rw [hdrop] at hsub
        simp at hsub
        omega
      obtain ⟨ih1, ih2, ih3⟩ := ih rest.length hlen rest rfl
      rw [splitNl_eq_of_cons buf '\n' rest hdrop]
      refine ⟨ih1, ?_, ?_⟩
      · have hsplit := List.takeWhile_append_dropWhile (fun c => c != '\n') buf
        calc joinNl (buf.takeWhile (fun c => c != '\n') :: (splitNl rest).1)
              ++ (splitNl rest).2
            = buf.takeWhile (fun c => c != '\n')
              ++ ('\n' :: (joinNl (splitNl rest).1 ++ (splitNl rest).2)) := by
              simp [joinNl]
          _ = buf.takeWhile (fun c => c != '\n') ++ ('\n' :: rest) := by rw [ih2]
          _ = buf := by rw [← hdrop, hsplit]
      · intro l hl
        rcases List.mem_cons.mp hl with hl | hl
        · subst hl
          intro hmem
          have := List.mem_takeWhile_imp hmem
          simp at this
        · exact ih3 l hl

theorem newlineRecords_join (ls : List Chars) (hls : ∀ l ∈ ls, '\n' ∉ l) (u : Chars) :
    newlineRecords (joinNl ls ++ u) = ls ++ newlineRecords u := by
  induction ls with
  | nil => simp [joinNl]
  | cons a ls ih =>
    have ha : '\n' ∉ a := hls a (by simp)
    have hstep : joinNl (a :: ls) ++ u = a ++ ('\n' :: (joinNl ls ++ u)) := by
      simp [joinNl]
    rw [hstep]
    have hall : ∀ x ∈ a, (fun c => c != '\n') x = true := by
      intro x hx
      simp only [bne_iff_ne, ne_eq]
      intro hx2
      rw [hx2] at hx
      exact ha hx
    have hdrop : (a ++ ('\n' :: (joinNl ls ++ u))).dropWhile (fun c => c != '\n')
        = '\n' :: (joinNl ls ++ u) := by
      rw [List.dropWhile_append_of_pos hall]
      simp [List.dropWhile_cons]
    rw [newlineRecords_eq_of_cons _ '\n' _ hdrop]
    rw [List.takeWhile_append_of_pos hall]
    simp only [List.takeWhile_cons]
    simp only [bne_self_eq_false, Bool.false_eq_true, if_false, List.append_nil]
    rw [ih (fun l hl => hls l (by simp [hl]))]
    simp

theorem rclGo_records (chunks : List Chars) :
    ∀ buf : Chars, '\n' ∉ buf →
      rclGo buf chunks = newlineRecords (buf ++ chunks.flatten) := by
  induction chunks with
  | nil =>
    intro buf h
    simp only [rclGo, List.flatten_nil, List.append_nil]
    exact (newlineRecords_of_no_nl buf h).symm
  | cons c cs ih =>
    intro buf _
    obtain ⟨hr, hjoin, hlines⟩ := splitNl_spec (buf ++ c)
    simp only [rclGo]
    rw [ih _ hr]
    have hflat : buf ++ (c :: cs).flatten = joinNl (splitNl (buf ++ c)).1
        ++ ((splitNl (buf ++ c)).2 ++ cs.flatten) := by
      rw [← List.append_assoc, hjoin, List.flatten_cons, ← List.append_assoc]
    rw [hflat, newlineRecords_join _ hlines]

/-- C5.  The chunked line reader emits exactly the newline-terminated
records of the decompressed stream; the bytes after the last newline are
never emitted. -/
theorem c5_reader_emits_only_terminated_records (chunks : List Chars) :
    readCompressedLines chunks = newlineRecords chunks.flatten := by
  have h := rclGo_records chunks [] (by simp)
  simpa [readCompressedLines] using h

/-! ## JSON round-trip lemmas (C6) -/

theorem char_toNat_valid (c : Char) :
    c.toNat < 55296 ∨ (57343 < c.toNat ∧ c.toNat < 1114112) := by
  have h := c.valid
  simp only [UInt32.isValidChar, Nat.isValidChar] at h
  exact h

theorem hexVal_hexDig (d : Nat) (h : d < 16) : hexVal (hexDig d) = some d := by
  interval_cases d <;> decide

theorem decodeHex4_hex4 (n : Nat) (h : n < 65536) :
    decodeHex4 (hexDig (n / 4096 % 16)) (hexDig (n / 256 % 16))
      (hexDig (n / 16 % 16)) (hexDig (n % 16)) = some n := by
  have h1 := hexVal_hexDig (n / 4096 % 16) (Nat.mod_lt _ (by omega))
  have h2 := hexVal_hexDig (n / 256 % 16) (Nat.mod_lt _ (by omega))
  have h3 := hexVal_hexDig (n / 16 % 16) (Nat.mod_lt _ (by omega))
  have h4 := hexVal_hexDig (n % 16) (Nat.mod_lt _ (by omega))
  simp only [decodeHex4, h1, h2, h3, h4]
  congr 1
  omega

theorem pjsb_quote (t : Chars) : parseJStringBody ('\"' :: t) = some ([], t) := by
  rw [parseJStringBody.eq_def]
  simp

theorem pjsb_esc (e d : Char) (t : Chars) (he : escChar e = some d) (hne : e ≠ 'u') :
    parseJStringBody ('\\' :: e :: t)
      = (parseJStringBody t).map (fun p => (d :: p.1, p.2)) := by
  rw [parseJStringBody.eq_def]
  simp [hne, he]

theorem pue_single (a b c2 d : Char) (t : Chars) (n : Nat)
    (hhex : decodeHex4 a b c2 d = some n)
    (hns : ¬ (55296 ≤ n ∧ n ≤ 56319)) (hnl : ¬ (56320 ≤ n ∧ n ≤ 57343)) :
    parseUEscape (a :: b :: c2 :: d :: t) = some (Char.ofNat n, 4) := by
  simp [parseUEscape, hhex, hns, hnl]

theorem pue_pair (a b c2 d a2 b2 c3 d2 : Char) (t : Chars) (n m : Nat)
    (h1 : decodeHex4 a b c2 d = some n) (hhi : 55296 ≤ n ∧ n ≤ 56319)
    (h2 : decodeHex4 a2 b2 c3 d2 = some m) (hlo : 56320 ≤ m ∧ m ≤ 57343) :
    parseUEscape (a :: b :: c2 :: d :: '\\' :: 'u' :: a2 :: b2 :: c3 :: d2 :: t)
      = some (Char.ofNat (65536 + (n - 55296) * 1024 + (m - 56320)), 10) := by
  simp [parseUEscape, h1, hhi.1, hhi.2, h2, hlo.1, hlo.2]

theorem pjsb_uescape (rest2 : Chars) (ch : Char) (used : Nat)
    (h : parseUEscape rest2 = some (ch, used)) :
    parseJStringBody ('\\' :: 'u' :: rest2)
      = (parseJStringBody (rest2.drop used)).map (fun p => (ch :: p.1, p.2)) := by
  rw [parseJStringBody.eq_def]
  simp [h]

theorem pjsb_plain (c : Char) (t : Chars) (h1 : c ≠ '\"') (h2 : c ≠ '\\')
    (h3 : 32 ≤ c.toNat) :
    parseJStringBody (c :: t) = (parseJStringBody t).map (fun p => (c :: p.1, p.2)) := by
  rw [parseJStringBody.eq_def]
  simp [h1, h2, show ¬ c.toNat < 32 from by omega]

theorem pjsb_encodeChar (c : Char) (t : Chars) :
    parseJStringBody (encodeChar c ++ t)
      = (parseJStringBody t).map (fun p => (c :: p.1, p.2)) := by
  have hval := char_toNat_valid c
  unfold encodeChar
  split_ifs with h1 h2 h3 h4 h5 h6 h7 h8 h9
  · subst h1
    simpa using pjsb_esc '\"' '\"' t rfl (by decide)
  · subst h2
    simpa using pjsb_esc '\\' '\\' t rfl (by decide)
  · subst h3
    simpa using pjsb_esc 'b' (Char.ofNat 8) t rfl (by decide)
  · subst h4
    simpa using pjsb_esc 'f' (Char.ofNat 12) t rfl (by decide)
  · subst h5
    simpa using pjsb_esc 'n' '\n' t rfl (by decide)
  · subst h6
    simpa using pjsb_esc 'r' (Char.ofNat 13) t rfl (by decide)
  · subst h7
    simpa using pjsb_esc 't' '\t' t rfl (by decide)
  · simpa using pjsb_plain c t h1 h2 h8.1
  · have hshape : ('\\' :: 'u' :: hex4 c.toNat) ++ t
        = '\\' :: 'u' :: (hexDig (c.toNat / 4096 % 16) :: hexDig (c.toNat / 256 % 16)
          :: hexDig (c.toNat / 16 % 16) :: hexDig (c.toNat % 16) :: t) := by
      simp [hex4]
    have hpue := pue_single (hexDig (c.toNat / 4096 % 16)) (hexDig (c.toNat / 256 % 16))
      (hexDig (c.toNat / 16 % 16)) (hexDig (c.toNat % 16)) t c.toNat
      (decodeHex4_hex4 c.toNat h9) (by omega) (by omega)
    rw [hshape, pjsb_uescape _ _ _ hpue]
    simp
  · have hlt : c.toNat < 1114112 := by omega
    have hshape : ('\\' :: 'u' :: hex4 (55296 + (c.toNat - 65536) / 1024)
          ++ '\\' :: 'u' :: hex4 (56320 + (c.toNat - 65536) % 1024)) ++ t
        = '\\' :: 'u' :: (hexDig ((55296 + (c.toNat - 65536) / 1024) / 4096 % 16)
          :: hexDig ((55296 + (c.toNat - 65536) / 1024) / 256 % 16)
          :: hexDig ((55296 + (c.toNat - 65536) / 1024) / 16 % 16)
          :: hexDig ((55296 + (c.toNat - 65536) / 1024) % 16)
          :: '\\' :: 'u' :: hexDig ((56320 + (c.toNat - 65536) % 1024) / 4096 % 16)
          :: hexDig ((56320 + (c.toNat - 65536) % 1024) / 256 % 16)
          :: hexDig ((56320 + (c.toNat - 65536) % 1024) / 16 % 16)
          :: hexDig ((56320 + (c.toNat - 65536) % 1024) % 16) :: t) := by
      simp [hex4]
    have hpue := pue_pair _ _ _ _ _ _ _ _ t
      (55296 + (c.toNat - 65536) / 1024) (56320 + (c.toNat - 65536) % 1024)
      (decodeHex4_hex4 _ (by omega)) (by omega)
      (decodeHex4_hex4 _ (by omega)) (by omega)
    rw [hshape, pjsb_uescape _ _ _ hpue]
    have harg : 65536 + ((55296 + (c.toNat - 65536) / 1024) - 55296) * 1024
        + ((56320 + (c.toNat - 65536) % 1024) - 56320) = c.toNat := by omega
    rw [harg]
    simp

theorem pjsb_encodeStr (s : Chars) : ∀ t : Chars,
    parseJStringBody (encodeStr s ++ '\"' :: t) = some (s, t) := by
  induction s with
  | nil =>
    intro t
    simpa using pjsb_quote t
  | cons c cs ih =>
    intro t
    have hshape : encodeStr (c :: cs) ++ '\"' :: t
        = encodeChar c ++ (encodeStr cs ++ '\"' :: t) := by
      simp [encodeStr]
    rw [hshape, pjsb_encodeChar, ih t]
    rfl

theorem encodeRest_length_ge (es : List (Chars × Chars)) :
    es.length ≤ (encodeRest es).length := by
  induction es with
  | nil => simp [encodeRest]
  | cons e es ih =>
    simp [encodeRest]
    omega

theorem parseMembersF_encode : ∀ (es : List (Chars × Chars)) (fuel : Nat)
    (e : Chars × Chars), es.length < fuel →
    parseMembersF fuel (encodeEntry e ++ (encodeRest es ++ ['\x7d'])) = some (e :: es) := by
  intro es
  induction es with
  | nil =>
    intro fuel e hf
    cases fuel with
    | zero => omega
    | succ f =>
      obtain ⟨k, v⟩ := e
      have hshape : encodeEntry (k, v) ++ (encodeRest [] ++ ['\x7d'])
          = '\"' :: (encodeStr k
            ++ '\"' :: (':' :: ' ' :: '\"' :: (encodeStr v ++ '\"' :: ['\x7d']))) := by
        simp [encodeEntry, encodeRest]
      rw [hshape]
      simp [parseMembersF, pjsb_encodeStr]
  | cons e2 es ih =>
    intro fuel e hf
    cases fuel with
    | zero => omega
    | succ f =>
      obtain ⟨k, v⟩ := e
      have hshape : encodeEntry (k, v) ++ (encodeRest (e2 :: es) ++ ['\x7d'])
          = '\"' :: (encodeStr k
            ++ '\"' :: (':' :: ' ' :: '\"' :: (encodeStr v
              ++ '\"' :: (',' :: ' ' :: (encodeEntry e2 ++ (encodeRest es ++ ['\x7d'])))))) := by
        simp [encodeEntry, encodeRest]
      rw [hshape]
      simp only [parseMembersF, pjsb_encodeStr]
      rw [ih f e2 (by simpa using Nat.lt_of_succ_lt_succ hf)]
      rfl

theorem parseIndexJson_encodeIndex (idx : List (Chars × Chars)) :
    parseIndexJson (encodeIndex idx) = some idx := by
  cases idx with
  | nil => rfl
  | cons e es =>
    have hshape : encodeIndex (e :: es)
        = '\x7b' :: '\"' :: ((encodeStr e.1
            ++ '\"' :: (':' :: ' ' :: '\"' :: (encodeStr e.2 ++ ['\"'])))
            ++ (encodeRest es ++ ['\x7d'])) := by
      simp [encodeIndex, encodeEntry]
    have hback : '\"' :: ((encodeStr e.1
            ++ '\"' :: (':' :: ' ' :: '\"' :: (encodeStr e.2 ++ ['\"'])))
            ++ (encodeRest es ++ ['\x7d']))
        = encodeEntry e ++ (encodeRest es ++ ['\x7d']) := by
      simp [encodeEntry]
    rw [hshape, parseIndexJson.eq_def]
    rw [hback]
    apply parseMembersF_encode
    have h1 := encodeRest_length_ge es
    simp [encodeEntry]
    omega

/-- C6.  An index produced by a successful inventory parse, saved with
`save_cache` (serialized with `json.dump`) and read back by `run`'s
loader (`json.load` of the same file), round-trips to the identical
index: the decode of the encode is the index itself. -/
theorem c6_save_load_round_trip (fs : Chars → Option Chars) (key : Chars) (p : Payload)
    (idx : List (Chars × Chars)) (hbuilt : parseObjectInv p = Except.ok idx) :
    loadCachedIndex (save_cache fs key idx) key = some idx := by
  unfold loadCachedIndex save_cache
  simp only [beq_self_eq_true, if_true]
  exact parseIndexJson_encodeIndex idx

/-- Witness for C6 at the concrete well-formed payload. -/
theorem c6_witness :
    parseObjectInv goodPayload
      = Except.ok [("json.dumps".toList, "library/json.html#json.dumps".toList)]
  ∧ loadCachedIndex
      (save_cache (fun _ => none) "python".toList
        [("json.dumps".toList, "library/json.html#json.dumps".toList)])
      "python".toList
      = some [("json.dumps".toList, "library/json.html#json.dumps".toList)] :=
  ⟨rfl,
    c6_save_load_round_trip (fun _ => none) "python".toList goodPayload
      [("json.dumps".toList, "library/json.html#json.dumps".toList)] rfl⟩

end Rtfm
